import Mathlib

/-!
# Verification of the ortholist identifier-resolution and consolidation core

Shallow embedding of `src/helper/wb_map.py`, the group-expansion loops of
`src/databases/Homologene.py` and `src/databases/OrthoMCL.py`, the crosswalk
merges of `src/databases/OMA.py` / `src/databases/Homologene.py` /
`src/databases/InParanoid.py`, the master-table consolidation of `src/run.py`,
and the `Database.__init__` / `Ortholist` dispatch.

Tabular data is modelled as lists of rows (a pandas column is a list, a
DataFrame a list of tuples); Python `None` / NaN is `Option.none`; a Python
`dict` is an association list where the *last* binding for a key wins
(matching dict overwrite on repeated assignment); a Python `set` built by
repeated `add` is a duplicate-free list in insertion order.
-/

/-! ## `src/helper/wb_map.py` -/

/-- One entry of `WB_OLD_TO_CURRENT_MAP`: the loader stores
`WB_OLD_TO_CURRENT_MAP[old] = (current, comment)` where `current` has been
normalised from `""` to `None` and `comment` is the raw CSV field (always a
string, possibly empty). -/
structure ChangeEntry where
  old : String
  current : Option String
  comment : String
  deriving DecidableEq, Repr

/-- A raw data row of `data/wormbase/WB_changes.csv` (after the header that
`next(READER)` skips): `(old, current, comment)` as unparsed strings. -/
structure RawChangeRow where
  old : String
  current : String
  comment : String
  deriving DecidableEq, Repr

/-- The per-row normalisation done by the loading loop:
`if current == "": current = None`. -/
def parseChangeRow (r : RawChangeRow) : ChangeEntry :=
  { old := r.old
    current := if r.current = "" then none else some r.current
    comment := r.comment }

/-- The loading loop for `WB_OLD_TO_CURRENT_MAP`, as the list of bindings it
performs in order. -/
def loadChangeMap (rows : List RawChangeRow) : List ChangeEntry :=
  rows.map parseChangeRow

/-- Python dict lookup over the binding list: the last binding for a key wins,
mirroring `WB_OLD_TO_CURRENT_MAP[old] = ...` overwriting earlier bindings. -/
def mapLookup (m : List ChangeEntry) (k : String) : Option ChangeEntry :=
  m.reverse.find? (fun e => e.old = k)

/-- The module-level state of `wb_map.py`: the `WB_WS255` set and the
`WB_OLD_TO_CURRENT_MAP` dict (kept abstract because the data files are inputs
of the program, not part of it). -/
structure WBState where
  ws255 : List String
  changeMap : List ChangeEntry
  deriving Repr

/-- `get_ce_wb_current` from `src/helper/wb_map.py`:
membership test on the dict, then on `WB_WS255`, else `None`. -/
def get_ce_wb_current (st : WBState) (wb_id_old : String) : Option String :=
  match mapLookup st.changeMap wb_id_old with
  | some e => e.current
  | none => if wb_id_old ∈ st.ws255 then some wb_id_old else none

/-- `get_ce_wb_comment` from `src/helper/wb_map.py`. -/
def get_ce_wb_comment (st : WBState) (wb_id_old : String) : Option String :=
  match mapLookup st.changeMap wb_id_old with
  | some e => some e.comment
  | none =>
    if wb_id_old ∈ st.ws255 then none
    else some "Not mapped, not in WS255"

/-- `get_ce_wb_updated` from `src/helper/wb_map.py`: the two elementwise
`Series.apply` calls over the `CE_WB_OLD` column, glued side by side by
`pd.concat(..., axis=1)` (index-aligned, hence positional `zip` for two
series produced from the same frame). -/
def get_ce_wb_updated (st : WBState) (ce_wb_old : List String) :
    List (Option String × Option String) :=
  (ce_wb_old.map (get_ce_wb_current st)).zip (ce_wb_old.map (get_ce_wb_comment st))

/-! ## Supporting lemmas about the resolver -/

theorem mapLookup_mem {m : List ChangeEntry} {k : String} {e : ChangeEntry}
    (h : mapLookup m k = some e) : e ∈ m := by
  have := List.mem_of_find?_eq_some h
  simpa using this

theorem mapLookup_key {m : List ChangeEntry} {k : String} {e : ChangeEntry}
    (h : mapLookup m k = some e) : e.old = k := by
  have := List.find?_some h
  simpa using this

/-! ## Claims about the identifier resolver -/

/-- C1 counterexample: take the state whose deprecation map holds
`"WBGene1" ↦ (None, "retired")` and whose WS255 set contains `"WBGene1"`.
The claim predicts `resolve_current "WBGene1" = some "WBGene1"`; the code
returns the stored successor field, i.e. `none`. -/
theorem get_ce_wb_current_retired_cex :
    mapLookup (loadChangeMap [⟨"WBGene1", "", "retired"⟩]) "WBGene1" =
      some ⟨"WBGene1", none, "retired"⟩ ∧
    "WBGene1" ∈ (["WBGene1"] : List String) ∧
    get_ce_wb_current ⟨["WBGene1"], loadChangeMap [⟨"WBGene1", "", "retired"⟩]⟩
      "WBGene1" = none ∧
    get_ce_wb_current ⟨["WBGene1"], loadChangeMap [⟨"WBGene1", "", "retired"⟩]⟩
      "WBGene1" ≠ some "WBGene1" := by
  refine ⟨rfl, by decide, rfl, by decide⟩

/-- C1 (amended): `get_ce_wb_current` returns the stored successor field
whenever `old` is in the deprecation map — even when that field is null and
`old` is itself present in WS255; otherwise it returns `old` when `old` is in
WS255, and null when it is in neither. -/
theorem get_ce_wb_current_cases (st : WBState) (old : String) :
    (∀ e, mapLookup st.changeMap old = some e →
      get_ce_wb_current st old = e.current) ∧
    (mapLookup st.changeMap old = none → old ∈ st.ws255 →
      get_ce_wb_current st old = some old) ∧
    (mapLookup st.changeMap old = none → old ∉ st.ws255 →
      get_ce_wb_current st old = none) := by
  refine ⟨fun e he => ?_, fun h hw => ?_, fun h hw => ?_⟩
  · simp [get_ce_wb_current, he]
  · simp [get_ce_wb_current, h, hw]
  · simp [get_ce_wb_current, h, hw]

/-- C1 witness: the three cases of `get_ce_wb_current_cases` at concrete
states. -/
theorem get_ce_wb_current_cases_witness :
    get_ce_wb_current ⟨["a"], loadChangeMap [⟨"x", "y", "c"⟩]⟩ "x" = some "y" ∧
    get_ce_wb_current ⟨["a"], loadChangeMap [⟨"x", "y", "c"⟩]⟩ "a" = some "a" ∧
    get_ce_wb_current ⟨["a"], loadChangeMap [⟨"x", "y", "c"⟩]⟩ "b" = none :=
  ⟨(get_ce_wb_current_cases ⟨["a"], loadChangeMap [⟨"x", "y", "c"⟩]⟩ "x").1
      ⟨"x", some "y", "c"⟩ (by decide),
   (get_ce_wb_current_cases ⟨["a"], loadChangeMap [⟨"x", "y", "c"⟩]⟩ "a").2.1
      (by decide) (by decide),
   (get_ce_wb_current_cases ⟨["a"], loadChangeMap [⟨"x", "y", "c"⟩]⟩ "b").2.2
      (by decide) (by decide)⟩

/-- C4 counterexample: nothing in the code checks the successor field against
WS255, so with map `"a" ↦ ("b", "")` and empty WS255 the function returns
`"b"`, which is outside the canonical directory. -/
theorem get_ce_wb_current_totality_cex :
    get_ce_wb_current ⟨[], loadChangeMap [⟨"a", "b", ""⟩]⟩ "a" = some "b" ∧
    "b" ∉ (⟨[], loadChangeMap [⟨"a", "b", ""⟩]⟩ : WBState).ws255 := by
  exact ⟨rfl, by decide⟩

/-- C4 (amended): `get_ce_wb_current` returns null or a member of WS255
*provided* every non-null successor stored in the deprecation map is itself a
member of WS255; the code performs no such check, so totality is a property
of the loaded data, not of the function. -/
theorem get_ce_wb_current_totality (st : WBState) (old : String)
    (h : ∀ e ∈ st.changeMap, ∀ c, e.current = some c → c ∈ st.ws255) :
    get_ce_wb_current st old = none ∨
      ∃ c, get_ce_wb_current st old = some c ∧ c ∈ st.ws255 := by
  unfold get_ce_wb_current
  cases hm : mapLookup st.changeMap old with
  | none =>
    by_cases hw : old ∈ st.ws255
    · exact Or.inr ⟨old, by simp [hw], hw⟩
    · exact Or.inl (by simp [hw])
  | some e =>
    cases hc : e.current with
    | none => exact Or.inl (by simp [hc])
    | some c => exact Or.inr ⟨c, by simp [hc], h e (mapLookup_mem hm) c hc⟩

/-- C4 witness: `get_ce_wb_current_totality` at a concrete state whose only
successor lies in WS255. -/
theorem get_ce_wb_current_totality_witness :
    (∀ e ∈ (⟨["b"], loadChangeMap [⟨"a", "b", ""⟩]⟩ : WBState).changeMap,
      ∀ c, e.current = some c →
        c ∈ (⟨["b"], loadChangeMap [⟨"a", "b", ""⟩]⟩ : WBState).ws255) ∧
    (get_ce_wb_current ⟨["b"], loadChangeMap [⟨"a", "b", ""⟩]⟩ "a" = none ∨
      ∃ c, get_ce_wb_current ⟨["b"], loadChangeMap [⟨"a", "b", ""⟩]⟩ "a" = some c ∧
        c ∈ (⟨["b"], loadChangeMap [⟨"a", "b", ""⟩]⟩ : WBState).ws255) :=
  ⟨by decide,
   get_ce_wb_current_totality ⟨["b"], loadChangeMap [⟨"a", "b", ""⟩]⟩ "a" (by decide)⟩

/-- C5 counterexample: for an identifier absent from both the map and WS255
the code returns the sentinel `"Not mapped, not in WS255"`, not the string
`"not mapped, not in current release"` quoted by the claim. -/
theorem get_ce_wb_comment_sentinel_cex :
    get_ce_wb_comment ⟨[], []⟩ "q" = some "Not mapped, not in WS255" ∧
    "Not mapped, not in WS255" ≠ "not mapped, not in current release" := by
  exact ⟨rfl, by decide⟩

/-- C5 (amended): `get_ce_wb_comment` returns the stored comment when the
identifier is in the deprecation map, null when it is not in the map but in
WS255, and the fixed sentinel `"Not mapped, not in WS255"` when it is in
neither. -/
theorem get_ce_wb_comment_cases (st : WBState) (old : String) :
    (∀ e, mapLookup st.changeMap old = some e →
      get_ce_wb_comment st old = some e.comment) ∧
    (mapLookup st.changeMap old = none → old ∈ st.ws255 →
      get_ce_wb_comment st old = none) ∧
    (mapLookup st.changeMap old = none → old ∉ st.ws255 →
      get_ce_wb_comment st old = some "Not mapped, not in WS255") := by
  refine ⟨fun e he => ?_, fun h hw => ?_, fun h hw => ?_⟩
  · simp [get_ce_wb_comment, he]
  · simp [get_ce_wb_comment, h, hw]
  · simp [get_ce_wb_comment, h, hw]

/-- C5 witness: the three cases of `get_ce_wb_comment_cases` at concrete
states. -/
theorem get_ce_wb_comment_cases_witness :
    get_ce_wb_comment ⟨["a"], loadChangeMap [⟨"x", "y", "moved"⟩]⟩ "x" =
      some "moved" ∧
    get_ce_wb_comment ⟨["a"], loadChangeMap [⟨"x", "y", "moved"⟩]⟩ "a" = none ∧
    get_ce_wb_comment ⟨["a"], loadChangeMap [⟨"x", "y", "moved"⟩]⟩ "b" =
      some "Not mapped, not in WS255" :=
  ⟨(get_ce_wb_comment_cases ⟨["a"], loadChangeMap [⟨"x", "y", "moved"⟩]⟩ "x").1
      ⟨"x", some "y", "moved"⟩ (by decide),
   (get_ce_wb_comment_cases ⟨["a"], loadChangeMap [⟨"x", "y", "moved"⟩]⟩ "a").2.1
      (by decide) (by decide),
   (get_ce_wb_comment_cases ⟨["a"], loadChangeMap [⟨"x", "y", "moved"⟩]⟩ "b").2.2
      (by decide) (by decide)⟩

/-- C8 counterexample: the loading loop stores the comment field verbatim, so
the file row `("a", "b", "c")` yields an entry with a non-null successor *and*
a non-empty reason — "never both set" fails. -/
theorem loadChangeMap_invariant_cex :
    parseChangeRow ⟨"a", "b", "c"⟩ ∈ loadChangeMap [⟨"a", "b", "c"⟩] ∧
    (parseChangeRow ⟨"a", "b", "c"⟩).current = some "b" ∧
    (parseChangeRow ⟨"a", "b", "c"⟩).comment = "c" ∧
    (parseChangeRow ⟨"a", "b", "c"⟩).comment ≠ "" := by
  refine ⟨by decide, rfl, rfl, by decide⟩

/-- C8 (amended): the loading step normalises only the successor field
(`"" ↦ None`) and stores the comment verbatim; each entry of the loaded map
comes from an input row with the same key and comment, and its successor is
null exactly when the row's successor field was the empty string. No relation
between the successor and the comment is enforced. -/
theorem loadChangeMap_entry_shape (rows : List RawChangeRow) :
    ∀ e ∈ loadChangeMap rows, ∃ r ∈ rows,
      e.old = r.old ∧ e.comment = r.comment ∧
      (e.current = none ↔ r.current = "") ∧
      (∀ c, e.current = some c → c = r.current) := by
  intro e he
  simp only [loadChangeMap, List.mem_map] at he
  obtain ⟨r, hr, he⟩ := he
  subst he
  refine ⟨r, hr, rfl, rfl, ?_, ?_⟩
  · by_cases h : r.current = "" <;> simp [parseChangeRow, h]
  · intro c hc
    by_cases h : r.current = "" <;> simp [parseChangeRow, h] at hc
    exact hc.symm

/-- C8 witness: `loadChangeMap_entry_shape` at a one-row file describing a
pure retirement. -/
theorem loadChangeMap_entry_shape_witness :
    parseChangeRow ⟨"a", "", "gone"⟩ ∈ loadChangeMap [⟨"a", "", "gone"⟩] ∧
    ∃ r ∈ [(⟨"a", "", "gone"⟩ : RawChangeRow)],
      (parseChangeRow ⟨"a", "", "gone"⟩).old = r.old ∧
      (parseChangeRow ⟨"a", "", "gone"⟩).comment = r.comment ∧
      ((parseChangeRow ⟨"a", "", "gone"⟩).current = none ↔ r.current = "") ∧
      (∀ c, (parseChangeRow ⟨"a", "", "gone"⟩).current = some c → c = r.current) :=
  ⟨by decide,
   loadChangeMap_entry_shape [⟨"a", "", "gone"⟩] (parseChangeRow ⟨"a", "", "gone"⟩)
     (by decide)⟩

/-- C9 (confirmed): `get_ce_wb_updated` yields exactly one output row per
input row, in input order — position `i` of the output is the pair of
resolutions of position `i` of the input, duplicates included. -/
theorem get_ce_wb_updated_rowwise (st : WBState) (col : List String) :
    (get_ce_wb_updated st col).length = col.length ∧
    ∀ i : Nat, (get_ce_wb_updated st col)[i]? =
      (col[i]?).map (fun x => (get_ce_wb_current st x, get_ce_wb_comment st x)) := by
  have hz : get_ce_wb_updated st col =
      col.map (fun x => (get_ce_wb_current st x, get_ce_wb_comment st x)) := by
    simp [get_ce_wb_updated, List.zip_map']
  constructor
  · simp [hz]
  · intro i
    simp [hz]

/-! ## Group expansion: `Homologene._make_homologene_table` and
`OrthoMCL._read_raw` -/

/-- Modelled from the spec: `generate_combinations` lives in
`src/helper/misc.py`, which is absent from the sources provided; per the spec
it yields "the full cartesian product of the two membership sets — every
side-A member paired with every side-B member", via `itertools.product` over
the group's `cele` and `hsap` sides. -/
def generate_combinations (cele : List α) (hsap : List β) : List (α × β) :=
  cele.flatMap (fun c => hsap.map (fun h => (c, h)))

theorem generate_combinations_length (cele : List α) (hsap : List β) :
    (generate_combinations cele hsap).length = cele.length * hsap.length := by
  induction cele with
  | nil => simp [generate_combinations]
  | cons c cs ih =>
    simp only [generate_combinations, List.flatMap_cons, List.length_append,
      List.length_map] at ih ⊢
    rw [ih, List.length_cons, Nat.succ_mul, Nat.add_comm]

/-- One data row of `data/homologene/homologene.tsv` as the loop reads it:
`group_id = int(row[0])`, `taxonomy_id = int(row[1])`,
`entrez_id = int(row[2])`. -/
structure HgRow where
  group_id : Int
  taxonomy_id : Int
  entrez_id : Int
  deriving DecidableEq, Repr

/-- The `current_group` accumulator dict of the Homologene loop. -/
structure HgGroup where
  group_id : Option Int
  cele : List Int
  hsap : List Int
  deriving DecidableEq, Repr

/-- The guarded flush that the loop performs at each group boundary and after
the final row: `if len(cele) > 0 and len(hsap) > 0: ... += generate_combinations`. -/
def flushGroup (g : HgGroup) : List (Int × Int) :=
  if 0 < g.cele.length ∧ 0 < g.hsap.length then generate_combinations g.cele g.hsap
  else []

/-- The taxonomy dispatch at the bottom of the loop body: `6239` appends to
`cele`, `9606` to `hsap`, anything else is ignored. -/
def hgMember (g : HgGroup) (row : HgRow) : HgGroup :=
  if row.taxonomy_id = 6239 then { g with cele := g.cele ++ [row.entrez_id] }
  else if row.taxonomy_id = 9606 then { g with hsap := g.hsap ++ [row.entrez_id] }
  else g

/-- One iteration of the Homologene loop over `(ortholog_list, current_group)`:
on a group-id change, flush the finished group and start a fresh one keyed by
the new id, then file the row's member. -/
def hgStep : List (Int × Int) × HgGroup → HgRow → List (Int × Int) × HgGroup
  | (acc, g), row =>
    if some row.group_id ≠ g.group_id then
      (acc ++ flushGroup g,
       hgMember { group_id := some row.group_id, cele := [], hsap := [] } row)
    else (acc, hgMember g row)

/-- `Homologene._make_homologene_table` from `src/databases/Homologene.py`:
fold the rows through the loop, then flush the final group. -/
def make_homologene_table (rows : List HgRow) : List (Int × Int) :=
  let acc := rows.foldl hgStep ([], { group_id := none, cele := [], hsap := [] })
  acc.1 ++ flushGroup acc.2

/-- Reference grouping: the same loop, recording the finished groups
themselves instead of their expansions. -/
def hgGroupStep : List HgGroup × HgGroup → HgRow → List HgGroup × HgGroup
  | (gs, g), row =>
    if some row.group_id ≠ g.group_id then
      (gs ++ [g],
       hgMember { group_id := some row.group_id, cele := [], hsap := [] } row)
    else (gs, hgMember g row)

/-- The maximal group runs of the Homologene stream, in order, the final
(possibly empty initial) group included. -/
def streamGroups (rows : List HgRow) : List HgGroup :=
  let acc := rows.foldl hgGroupStep ([], { group_id := none, cele := [], hsap := [] })
  acc.1 ++ [acc.2]

theorem hgGroupStep_shift (rows : List HgRow) (gs : List HgGroup) (g : HgGroup) :
    rows.foldl hgGroupStep (gs, g) =
      (gs ++ (rows.foldl hgGroupStep ([], g)).1,
       (rows.foldl hgGroupStep ([], g)).2) := by
  induction rows generalizing gs g with
  | nil => simp
  | cons r rs ih =>
    by_cases h : some r.group_id ≠ g.group_id
    · simp only [List.foldl_cons, hgGroupStep, if_pos h, List.nil_append]
      rw [ih, ih [g]]
      simp
    · simp only [List.foldl_cons, hgGroupStep, if_neg h]
      exact ih gs (hgMember g r)

theorem foldl_hgStep_spec (rows : List HgRow) (l : List (Int × Int)) (g : HgGroup) :
    rows.foldl hgStep (l, g) =
      (l ++ ((rows.foldl hgGroupStep ([], g)).1).flatMap flushGroup,
       (rows.foldl hgGroupStep ([], g)).2) := by
  induction rows generalizing l g with
  | nil => simp
  | cons r rs ih =>
    by_cases h : some r.group_id ≠ g.group_id
    · simp only [List.foldl_cons, hgStep, hgGroupStep, if_pos h, List.nil_append]
      rw [ih, hgGroupStep_shift rs [g]]
      simp
    · simp only [List.foldl_cons, hgStep, hgGroupStep, if_neg h]
      exact ih l (hgMember g r)

theorem make_homologene_table_stream (rows : List HgRow) :
    make_homologene_table rows = (streamGroups rows).flatMap flushGroup := by
  unfold make_homologene_table streamGroups
  rw [foldl_hgStep_spec]
  simp

theorem flushGroup_length (g : HgGroup) :
    (flushGroup g).length = g.cele.length * g.hsap.length := by
  unfold flushGroup
  by_cases h : 0 < g.cele.length ∧ 0 < g.hsap.length
  · simp [h, generate_combinations_length]
  · rw [if_neg h]
    rcases Nat.eq_zero_or_pos g.cele.length with hc | hc
    · simp [hc]
    · rcases Nat.eq_zero_or_pos g.hsap.length with hh | hh
      · simp [hh]
      · exact absurd ⟨hc, hh⟩ h

/-- One group accumulated by `OrthoMCL._read_raw`:
`groups[group_id]` with its `cele` and `hsap` member sets (insertion-ordered,
duplicate-free, as Python `set.add` builds them). -/
structure OmclGroup where
  gid : String
  cele : List String
  hsap : List String
  deriving DecidableEq, Repr

/-- Python `set.add`: insert if absent. -/
def insertSet (s : List String) (x : String) : List String :=
  if x ∈ s then s else s ++ [x]

/-- One iteration of the OrthoMCL grouping loop: `row[0]` is the source id,
`row[1]` the group id; ids starting with `"WBGene"` go to `cele`, all others
to `hsap`; a fresh group is created on first touch (defaultdict). -/
def omclAddRow (gs : List OmclGroup) (source_id group_id : String) :
    List OmclGroup :=
  if gs.any (fun g => g.gid = group_id) then
    gs.map (fun g =>
      if g.gid = group_id then
        if source_id.startsWith "WBGene" then
          { g with cele := insertSet g.cele source_id }
        else { g with hsap := insertSet g.hsap source_id }
      else g)
  else if source_id.startsWith "WBGene" then gs ++ [⟨group_id, [source_id], []⟩]
  else gs ++ [⟨group_id, [], [source_id]⟩]

/-- The `groups` dict of `OrthoMCL._read_raw`, in key-insertion order; rows
are `(source_id, group_id)` pairs, i.e. `(row[0], row[1])` of
`data/orthomcl/groupings.csv.gz`. -/
def omclGroups (rows : List (String × String)) : List OmclGroup :=
  rows.foldl (fun gs r => omclAddRow gs r.1 r.2) []

/-- The `ortholog_list` accumulation of `OrthoMCL._read_raw`:
`for key in groups: ortholog_list += generate_combinations(groups[key])`
(no emptiness guard — the cartesian product of an empty side is empty). -/
def orthomcl_ortholog_list (rows : List (String × String)) :
    List (String × String) :=
  (omclGroups rows).foldl (fun l g => l ++ generate_combinations g.cele g.hsap) []

theorem foldl_append_length {γ : Type} (f : OmclGroup → List γ)
    (gs : List OmclGroup) (init : List γ) :
    (gs.foldl (fun l g => l ++ f g) init).length =
      init.length + (gs.map (fun g => (f g).length)).sum := by
  induction gs generalizing init with
  | nil => simp
  | cons g gs ih =>
    simp only [List.foldl_cons, List.map_cons, List.sum_cons, ih,
      List.length_append]
    omega

theorem orthomcl_ortholog_list_length (rows : List (String × String)) :
    (orthomcl_ortholog_list rows).length =
      ((omclGroups rows).map (fun g => g.cele.length * g.hsap.length)).sum := by
  unfold orthomcl_ortholog_list
  rw [foldl_append_length (fun g => generate_combinations g.cele g.hsap)]
  simp [generate_combinations_length]

/-- C2: every flushed group of the Homologene stream (the end-of-input flush
included) contributes exactly `|cele| * |hsap|` pairs — hence `0` when either
side is empty — and the OrthoMCL expansion contributes exactly
`|cele| * |hsap|` pairs per accumulated group; the cartesian-product expander
always yields `|side_a| * |side_b|` pairs. -/
theorem group_expansion_cardinality (rows : List HgRow)
    (orows : List (String × String)) :
    make_homologene_table rows = (streamGroups rows).flatMap flushGroup ∧
    (∀ g ∈ streamGroups rows,
      (flushGroup g).length = g.cele.length * g.hsap.length) ∧
    (orthomcl_ortholog_list orows).length =
      ((omclGroups orows).map (fun g => g.cele.length * g.hsap.length)).sum ∧
    (∀ (cele hsap : List Int),
      (generate_combinations cele hsap).length = cele.length * hsap.length) :=
  ⟨make_homologene_table_stream rows,
   fun g _ => flushGroup_length g,
   orthomcl_ortholog_list_length orows,
   fun cele hsap => generate_combinations_length cele hsap⟩

/-- C2 witness: a two-group Homologene stream whose second group is flushed
only at end of input; the group `⟨2, [5, 6], [7]⟩` expands to `2 * 1` pairs. -/
theorem group_expansion_cardinality_witness :
    (⟨some 2, [5, 6], [7]⟩ : HgGroup) ∈ streamGroups
      [⟨1, 6239, 3⟩, ⟨1, 9606, 4⟩, ⟨2, 6239, 5⟩, ⟨2, 6239, 6⟩, ⟨2, 9606, 7⟩] ∧
    (flushGroup ⟨some 2, [5, 6], [7]⟩).length =
      ([5, 6] : List Int).length * ([7] : List Int).length :=
  ⟨by decide,
   (group_expansion_cardinality
      [⟨1, 6239, 3⟩, ⟨1, 9606, 4⟩, ⟨2, 6239, 5⟩, ⟨2, 6239, 6⟩, ⟨2, 9606, 7⟩]
      []).2.1 ⟨some 2, [5, 6], [7]⟩ (by decide)⟩

/-! ## Namespace crosswalks: `_perform_worm_mapping` in
`Homologene.py` (how='left'), `InParanoid.py` (how='left'), `OMA.py` (inner) -/

/-- One left row under `pd.merge(..., how='left', on='CE_ENTREZ')` as in
`Homologene._perform_worm_mapping`: all crosswalk hits, or a single
NaN-augmented row when there is none. -/
def hgRowExpand (cw : List (Int × String)) (l : Int × Int) :
    List (Int × Int × Option String) :=
  let hits := cw.filter (fun r => r.1 = l.1)
  if hits.isEmpty then [(l.1, l.2, none)]
  else hits.map (fun r => (l.1, l.2, some r.2))

/-- `Homologene._perform_worm_mapping`: left-join of the
`(CE_ENTREZ, HS_ENTREZ)` table with the Entrez→WB crosswalk on `CE_ENTREZ`. -/
def homologene_perform_worm_mapping (df : List (Int × Int))
    (cw : List (Int × String)) : List (Int × Int × Option String) :=
  df.flatMap (hgRowExpand cw)

/-- One left row under `pd.merge(..., how='left', on='CE_UNIPROT')` as in
`InParanoid._perform_worm_mapping`. -/
def ipRowExpand (cw : List (String × String)) (l : String × String) :
    List (String × String × Option String) :=
  let hits := cw.filter (fun r => r.1 = l.1)
  if hits.isEmpty then [(l.1, l.2, none)]
  else hits.map (fun r => (l.1, l.2, some r.2))

/-- `InParanoid._perform_worm_mapping`: left-join of the
`(CE_UNIPROT, HS_UNIPROT)` table with the UniProt→WB crosswalk. -/
def inparanoid_perform_worm_mapping (df cw : List (String × String)) :
    List (String × String × Option String) :=
  df.flatMap (ipRowExpand cw)

/-- One left row under `pd.merge(..., left_on='CE_WORMPEP', right_index=True)`
(default `how='inner'`) as in `OMA._perform_worm_mapping`; the Wormpep column
is dropped afterwards, leaving `(HS_ENSG, CE_WB_OLD)`. -/
def omaRowExpand (cw : List (String × String)) (l : String × String) :
    List (String × String) :=
  (cw.filter (fun r => r.1 = l.1)).map (fun r => (l.2, r.2))

/-- `OMA._perform_worm_mapping`: inner join of the `(CE_WORMPEP, HS_ENSG)`
table with the OMA→WB crosswalk, then `drop('CE_WORMPEP', axis=1)`. -/
def oma_perform_worm_mapping (df cw : List (String × String)) :
    List (String × String) :=
  df.flatMap (omaRowExpand cw)

/-- C6 counterexample: Homologene's crosswalk merge is `how='left'`, so a raw
record with zero crosswalk hits is *retained* with a null WB id, not dropped. -/
theorem crosswalk_zero_match_cex :
    homologene_perform_worm_mapping [(1, 2)] [] = [(1, 2, none)] ∧
    homologene_perform_worm_mapping [(1, 2)] [] ≠ [] := by
  exact ⟨rfl, by decide⟩

/-- C6 (amended): a record with k ≥ 1 crosswalk hits fans out into k rows in
every crosswalk source; a record with zero hits is dropped by the inner-join
crosswalk (OMA) but retained as a single row with a null mapped identifier by
the left-join crosswalks (Homologene, InParanoid). -/
theorem crosswalk_join_fanout (cwH : List (Int × String))
    (cwI cwO : List (String × String)) (lH : Int × Int) (lI lO : String × String) :
    (hgRowExpand cwH lH).length = max 1 (cwH.filter (fun r => r.1 = lH.1)).length ∧
    (cwH.filter (fun r => r.1 = lH.1) = [] →
      hgRowExpand cwH lH = [(lH.1, lH.2, none)]) ∧
    (ipRowExpand cwI lI).length = max 1 (cwI.filter (fun r => r.1 = lI.1)).length ∧
    (cwI.filter (fun r => r.1 = lI.1) = [] →
      ipRowExpand cwI lI = [(lI.1, lI.2, none)]) ∧
    (omaRowExpand cwO lO).length = (cwO.filter (fun r => r.1 = lO.1)).length := by
  refine ⟨?_, ?_, ?_, ?_, ?_⟩
  · unfold hgRowExpand
    rcases h : cwH.filter (fun r => r.1 = lH.1) with _ | ⟨r, rs⟩ <;> rw [h] <;> simp
  · intro h; simp [hgRowExpand, h]
  · unfold ipRowExpand
    rcases h : cwI.filter (fun r => r.1 = lI.1) with _ | ⟨r, rs⟩ <;> rw [h] <;> simp
  · intro h; simp [ipRowExpand, h]
  · simp [omaRowExpand]

/-- C6 witness: `crosswalk_join_fanout` at concrete rows — a zero-hit
Homologene record survives with a null id, and a two-hit OMA record fans out
into two rows. -/
theorem crosswalk_join_fanout_witness :
    hgRowExpand ([] : List (Int × String)) (1, 2) = [(1, 2, none)] ∧
    (omaRowExpand [("p", "w1"), ("p", "w2")] ("p", "g")).length =
      (([("p", "w1"), ("p", "w2")] : List (String × String)).filter
        (fun r => r.1 = "p")).length :=
  ⟨(crosswalk_join_fanout [] [] [] (1, 2) ("u", "v") ("p", "g")).2.1 (by decide),
   (crosswalk_join_fanout [] [] [("p", "w1"), ("p", "w2")] (1, 2) ("u", "v")
      ("p", "g")).2.2.2.2⟩

/-! ## Cross-source consolidation: the master-table block of `src/run.py` -/

/-- A per-source table as the master-table loop of `run.py` consumes it: the
source name from the `DATABASES` list and the `(CE_WB_CURRENT, HS_ENSG)`
columns of its frame. -/
structure SourceTable where
  name : String
  rows : List (Option String × Option String)
  deriving DecidableEq, Repr

/-- A `(CE_WB_CURRENT, HS_ENSG)` key of the `all_pairs` dict. -/
abbrev PairKey := String × String

/-- `all_pairs[(ce, hs)].add(name)` on the insertion-ordered dict with
duplicate-free source lists: update the (unique) binding in place, or append a
fresh singleton binding (defaultdict behaviour). -/
def addPair : List (PairKey × List String) → PairKey → String →
    List (PairKey × List String)
  | [], k, n => [(k, [n])]
  | e :: es, k, n =>
    if e.1 = k then (e.1, insertSet e.2 n) :: es
    else e :: addPair es k n

/-- One row of the `nn`-filtered inner loop: only rows with both
`CE_WB_CURRENT` and `HS_ENSG` non-null reach `all_pairs`. -/
def addRow (name : String) (acc : List (PairKey × List String))
    (row : Option String × Option String) : List (PairKey × List String) :=
  match row with
  | (some ce, some hs) => addPair acc (ce, hs) name
  | _ => acc

/-- Processing one `(name, db)` element of `DATABASES`. -/
def addTable (acc : List (PairKey × List String)) (db : SourceTable) :
    List (PairKey × List String) :=
  db.rows.foldl (addRow db.name) acc

/-- The `all_pairs` dict after the whole loop over `DATABASES`. -/
def all_pairs (dbs : List SourceTable) : List (PairKey × List String) :=
  dbs.foldl addTable []

/-- One element of `master_tuples`:
`(k[0], k[1], sorted(list(v)), len(v))`. -/
structure MasterRecord where
  ce : String
  hs : String
  databases : List String
  score : Nat
  deriving DecidableEq, Repr

/-- Lexicographic code-point comparison of character lists, the order Python
`sorted` uses on strings (weak version: `a ≤ b`). -/
def charListLe : List Char → List Char → Bool
  | [], _ => true
  | _ :: _, [] => false
  | a :: as, b :: bs =>
    if a < b then true else if b < a then false else charListLe as bs

/-- Lexicographic code-point comparison of character lists (strict). -/
def charListLt : List Char → List Char → Bool
  | [], [] => false
  | [], _ :: _ => true
  | _ :: _, [] => false
  | a :: as, b :: bs =>
    if a < b then true else if b < a then false else charListLt as bs

/-- Python `a <= b` on strings. -/
def strLe (a b : String) : Bool := charListLe a.data b.data

/-- Python `a < b` on strings. -/
def strLt (a b : String) : Bool := charListLt a.data b.data

theorem charListLe_total : ∀ a b : List Char,
    charListLe a b = true ∨ charListLe b a = true
  | [], _ => Or.inl rfl
  | _ :: _, [] => Or.inr rfl
  | a :: as, b :: bs => by
    by_cases hab : a < b
    · exact Or.inl (by simp [charListLe, hab])
    · by_cases hba : b < a
      · exact Or.inr (by simp [charListLe, hba])
      · rcases charListLe_total as bs with h | h
        · exact Or.inl (by simp [charListLe, hab, hba, h])
        · exact Or.inr (by simp [charListLe, hab, hba, h])

theorem charListLe_trans : ∀ {a b c : List Char},
    charListLe a b = true → charListLe b c = true → charListLe a c = true
  | [], _, _, _, _ => rfl
  | _ :: _, [], _, h, _ => by simp [charListLe] at h
  | _ :: _, _ :: _, [], _, h => by simp [charListLe] at h
  | a :: as, b :: bs, c :: cs, h1, h2 => by
    by_cases hab : a < b
    · by_cases hbc : b < c
      · simp [charListLe, lt_trans hab hbc]
      · by_cases hcb : c < b
        · simp only [charListLe, if_pos hbc] at h2
          rw [if_neg hbc, if_pos hcb] at h2
          exact absurd h2 (by simp)
        · have hbceq : b = c := le_antisymm (not_lt.1 hcb) (not_lt.1 hbc)
          simp [charListLe, hbceq ▸ hab]
    · by_cases hba : b < a
      · simp only [charListLe, if_neg hab, if_pos hba] at h1
        exact absurd h1 (by simp)
      · have habeq : a = b := le_antisymm (not_lt.1 hba) (not_lt.1 hab)
        subst habeq
        by_cases hbc : a < c
        · simp [charListLe, hbc]
        · by_cases hcb : c < a
          · simp only [charListLe, if_neg hbc, if_pos hcb] at h2
            exact absurd h2 (by simp)
          · simp only [charListLe, if_neg hab, if_neg hba] at h1
            simp only [charListLe, if_neg hbc, if_neg hcb] at h2
            simp [charListLe, hbc, hcb, charListLe_trans h1 h2]

instance strLeIsTotal : IsTotal String (fun a b => strLe a b = true) :=
  ⟨fun a b => charListLe_total a.data b.data⟩

instance strLeIsTrans : IsTrans String (fun a b => strLe a b = true) :=
  ⟨fun _ _ _ h1 h2 => charListLe_trans h1 h2⟩

/-- Python `sorted` over a set of source names (lexicographic by code point). -/
def sortNames (l : List String) : List String :=
  l.insertionSort (fun a b => strLe a b = true)

/-- `master_tuples` from `run.py`: one record per `all_pairs` key, in dict
iteration (= insertion) order. -/
def master_tuples (dbs : List SourceTable) : List MasterRecord :=
  (all_pairs dbs).map (fun e => ⟨e.1.1, e.1.2, sortNames e.2, e.2.length⟩)

/-- Dict lookup in `all_pairs` (keys are unique). -/
def pairLookup (acc : List (PairKey × List String)) (k : PairKey) :
    Option (List String) :=
  (acc.find? (fun e => e.1 = k)).map (fun e => e.2)

/-! ### Properties of `insertSet` -/

theorem insertSet_mem {s : List String} {x y : String} :
    y ∈ insertSet s x ↔ y ∈ s ∨ y = x := by
  unfold insertSet
  by_cases h : x ∈ s
  · simp only [if_pos h]
    exact ⟨Or.inl, fun h' => h'.elim id (fun hy => hy ▸ h)⟩
  · simp [if_neg h]

theorem insertSet_ne_nil (s : List String) (x : String) : insertSet s x ≠ [] := by
  unfold insertSet
  by_cases h : x ∈ s
  · rw [if_pos h]
    intro hs
    exact (List.not_mem_nil x) (hs ▸ h)
  · simp [if_neg h]

theorem insertSet_nodup {s : List String} (h : s.Nodup) (x : String) :
    (insertSet s x).Nodup := by
  unfold insertSet
  by_cases hx : x ∈ s
  · simpa [if_pos hx] using h
  · simp [if_neg hx, List.nodup_append, h, hx]

theorem insertSet_idem (s : List String) (x : String) :
    insertSet (insertSet s x) x = insertSet s x := by
  unfold insertSet
  by_cases h : x ∈ s
  · simp [if_pos h, h]
  · simp [if_neg h]

theorem insertSet_subset {s : List String} {P : String → Prop}
    (hs : ∀ y ∈ s, P y) {x : String} (hx : P x) :
    ∀ y ∈ insertSet s x, P y := by
  intro y hy
  rcases insertSet_mem.1 hy with h | h
  · exact hs y h
  · exact h ▸ hx

/-! ### Properties of `addPair` -/

theorem addPair_cons_hit {e : PairKey × List String}
    {es : List (PairKey × List String)} {k : PairKey} {n : String}
    (h : e.1 = k) :
    addPair (e :: es) k n = (e.1, insertSet e.2 n) :: es := by
  simp [addPair, h]

theorem addPair_cons_miss {e : PairKey × List String}
    {es : List (PairKey × List String)} {k : PairKey} {n : String}
    (h : ¬ e.1 = k) :
    addPair (e :: es) k n = e :: addPair es k n := by
  simp [addPair, h]

theorem mem_addPair_keys {acc : List (PairKey × List String)} {k k' : PairKey}
    {n : String} :
    k' ∈ (addPair acc k n).map (fun e => e.1) ↔
      k' ∈ acc.map (fun e => e.1) ∨ k' = k := by
  induction acc with
  | nil => simp [addPair]
  | cons e es ih =>
    by_cases h : e.1 = k
    · rw [addPair_cons_hit h]
      simp only [List.map_cons, List.mem_cons, h]
      tauto
    · rw [addPair_cons_miss h]
      simp only [List.map_cons, List.mem_cons, ih]
      tauto

theorem addPair_keys_nodup {acc : List (PairKey × List String)}
    (h : (acc.map (fun e => e.1)).Nodup) (k : PairKey) (n : String) :
    ((addPair acc k n).map (fun e => e.1)).Nodup := by
  induction acc with
  | nil => simp [addPair]
  | cons e es ih =>
    simp only [List.map_cons, List.nodup_cons] at h
    by_cases he : e.1 = k
    · rw [addPair_cons_hit he]
      simp only [List.map_cons, List.nodup_cons]
      exact ⟨h.1, h.2⟩
    · rw [addPair_cons_miss he]
      simp only [List.map_cons, List.nodup_cons]
      refine ⟨fun hmem => ?_, ih h.2⟩
      rcases mem_addPair_keys.1 hmem with h' | h'
      · exact h.1 h'
      · exact he h'

theorem pairLookup_addPair_same (acc : List (PairKey × List String))
    (k : PairKey) (n : String) :
    pairLookup (addPair acc k n) k =
      some (insertSet ((pairLookup acc k).getD []) n) := by
  induction acc with
  | nil => simp [addPair, pairLookup, insertSet]
  | cons e es ih =>
    by_cases h : e.1 = k
    · rw [addPair_cons_hit h]
      simp [pairLookup, List.find?_cons_of_pos, h]
    · rw [addPair_cons_miss h]
      simpa [pairLookup, List.find?_cons_of_neg, h] using ih

theorem pairLookup_addPair_other (acc : List (PairKey × List String))
    {k k' : PairKey} (h : k' ≠ k) (n : String) :
    pairLookup (addPair acc k n) k' = pairLookup acc k' := by
  induction acc with
  | nil =>
    have : ¬ (k = k') := fun hc => h hc.symm
    simp [addPair, pairLookup, this]
  | cons e es ih =>
    by_cases he : e.1 = k
    · rw [addPair_cons_hit he]
      have hne : ¬ e.1 = k' := fun hc => h ((he ▸ hc : k = k') ▸ rfl)
      simp [pairLookup, List.find?_cons_of_neg, hne]
    · rw [addPair_cons_miss he]
      by_cases he' : e.1 = k'
      · simp [pairLookup, List.find?_cons_of_pos, he']
      · simpa [pairLookup, List.find?_cons_of_neg, he'] using ih

theorem addPair_entries {acc : List (PairKey × List String)} {k : PairKey}
    {n : String} {P : List String → Prop}
    (hacc : ∀ e ∈ acc, P e.2)
    (hins : ∀ s, P s → P (insertSet s n)) (hnew : P [n]) :
    ∀ e ∈ addPair acc k n, P e.2 := by
  induction acc with
  | nil =>
    intro e he
    simp only [addPair, List.mem_singleton] at he
    simpa [he] using hnew
  | cons a as ih =>
    intro e he
    by_cases h : a.1 = k
    · rw [addPair_cons_hit h] at he
      rcases List.mem_cons.1 he with he | he
      · subst he
        exact hins a.2 (hacc a (List.mem_cons_self a as))
      · exact hacc e (List.mem_cons_of_mem a he)
    · rw [addPair_cons_miss h] at he
      rcases List.mem_cons.1 he with he | he
      · subst he
        exact hacc e (List.mem_cons_self e as)
      · exact ih (fun x hx => hacc x (List.mem_cons_of_mem a hx)) e he

/-! ### The `all_pairs` fold -/

theorem pairLookup_foldRows (name : String)
    (rows : List (Option String × Option String))
    (acc : List (PairKey × List String)) (k : PairKey) :
    pairLookup (rows.foldl (addRow name) acc) k =
      if (some k.1, some k.2) ∈ rows then
        some (insertSet ((pairLookup acc k).getD []) name)
      else pairLookup acc k := by
  induction rows generalizing acc with
  | nil => simp
  | cons r rs ih =>
    obtain ⟨a, b⟩ := r
    match a, b with
    | some ce, some hs =>
      by_cases hk : (ce, hs) = k
      · have hrow : ((some ce, some hs) : Option String × Option String) =
            (some k.1, some k.2) := by
          rw [← hk]
        simp only [List.foldl_cons, addRow, ih, hrow, List.mem_cons, true_or,
          if_true]
        rw [← hk] at *
        rw [pairLookup_addPair_same]
        by_cases hm : ((some ce, some hs) : Option String × Option String) ∈ rs
        · simp [hm, insertSet_idem]
        · simp [hm]
      · have hrow : ((some ce, some hs) : Option String × Option String) ≠
            (some k.1, some k.2) := by
          intro hc
          apply hk
          have h1 : ce = k.1 := by injection (congrArg Prod.fst hc) with h1
          have h2 : hs = k.2 := by injection (congrArg Prod.snd hc) with h2
          rw [h1, h2]
        simp only [List.foldl_cons, addRow, ih, List.mem_cons]
        rw [pairLookup_addPair_other _ (fun hc => hk hc.symm)]
        have hcomp : ¬ (k.1 = ce ∧ k.2 = hs) := by
          rintro ⟨h1, h2⟩
          exact hk (by rw [← h1, ← h2])
        simp [hrow, hcomp]
    | some ce, none =>
      simp only [List.foldl_cons, addRow, ih, List.mem_cons]
      simp
    | none, b =>
      simp only [List.foldl_cons, addRow, ih, List.mem_cons]
      simp

/-- Reference accumulation of the source set of one key: fold over the
source list, inserting the source name whenever the source's table holds the
key's row with both sides non-null. -/
def collectSources (k : PairKey) (dbs : List SourceTable) (init : List String) :
    List String :=
  dbs.foldl
    (fun s db => if (some k.1, some k.2) ∈ db.rows then insertSet s db.name else s)
    init

theorem collectSources_of_absent {k : PairKey} {dbs : List SourceTable}
    (h : ∀ db ∈ dbs, (some k.1, some k.2) ∉ db.rows) (init : List String) :
    collectSources k dbs init = init := by
  induction dbs with
  | nil => rfl
  | cons d ds ih =>
    have hd := h d (List.mem_cons_self d ds)
    simp only [collectSources, List.foldl_cons, if_neg hd]
    exact ih (fun db hdb => h db (List.mem_cons_of_mem d hdb))

theorem pairLookup_foldTables (dbs : List SourceTable)
    (acc : List (PairKey × List String)) (k : PairKey) :
    pairLookup (dbs.foldl addTable acc) k =
      if ∃ db ∈ dbs, (some k.1, some k.2) ∈ db.rows then
        some (collectSources k dbs ((pairLookup acc k).getD []))
      else pairLookup acc k := by
  induction dbs generalizing acc with
  | nil => simp
  | cons d ds ih =>
    simp only [List.foldl_cons]
    rw [ih]
    by_cases hd : (some k.1, some k.2) ∈ d.rows
    · have hlook : pairLookup (addTable acc d) k =
          some (insertSet ((pairLookup acc k).getD []) d.name) := by
        unfold addTable
        rw [pairLookup_foldRows, if_pos hd]
      have hcol : collectSources k (d :: ds) ((pairLookup acc k).getD []) =
          collectSources k ds (insertSet ((pairLookup acc k).getD []) d.name) := by
        simp [collectSources, List.foldl_cons, if_pos hd]
      by_cases hds : ∃ db ∈ ds, (some k.1, some k.2) ∈ db.rows
      · rw [if_pos hds, if_pos (by exact ⟨d, List.mem_cons_self d ds, hd⟩), hlook,
          hcol]
        simp
      · push_neg at hds
        rw [if_neg (by push_neg; exact hds), if_pos (⟨d, List.mem_cons_self d ds, hd⟩),
          hlook, hcol, collectSources_of_absent hds]
    · have hlook : pairLookup (addTable acc d) k = pairLookup acc k := by
        unfold addTable
        rw [pairLookup_foldRows, if_neg hd]
      have hcol : ∀ init, collectSources k (d :: ds) init = collectSources k ds init := by
        intro init
        simp [collectSources, List.foldl_cons, if_neg hd]
      by_cases hds : ∃ db ∈ ds, (some k.1, some k.2) ∈ db.rows
      · have : ∃ db ∈ d :: ds, (some k.1, some k.2) ∈ db.rows := by
          obtain ⟨db, hdb, hr⟩ := hds
          exact ⟨db, List.mem_cons_of_mem d hdb, hr⟩
        rw [if_pos hds, if_pos this, hlook, hcol]
      · have : ¬ ∃ db ∈ d :: ds, (some k.1, some k.2) ∈ db.rows := by
          rintro ⟨db, hdb, hr⟩
          rcases List.mem_cons.1 hdb with h' | h'
          · exact hd (h' ▸ hr)
          · exact hds ⟨db, h', hr⟩
        rw [if_neg hds, if_neg this, hlook]

theorem mem_collectSources {k : PairKey} {dbs : List SourceTable}
    {init : List String} {n : String} :
    n ∈ collectSources k dbs init ↔
      n ∈ init ∨ ∃ db ∈ dbs, db.name = n ∧ (some k.1, some k.2) ∈ db.rows := by
  induction dbs generalizing init with
  | nil => simp [collectSources]
  | cons d ds ih =>
    by_cases hd : (some k.1, some k.2) ∈ d.rows
    · simp only [collectSources, List.foldl_cons, if_pos hd]
      rw [show (List.foldl _ (insertSet init d.name) ds : List String) =
        collectSources k ds (insertSet init d.name) from rfl, ih]
      simp only [insertSet_mem, List.mem_cons]
      constructor
      · rintro ((h | h) | ⟨db, hdb, hn, hr⟩)
        · exact Or.inl h
        · exact Or.inr ⟨d, Or.inl rfl, h.symm, hd⟩
        · exact Or.inr ⟨db, Or.inr hdb, hn, hr⟩
      · rintro (h | ⟨db, hdb | hdb, hn, hr⟩)
        · exact Or.inl (Or.inl h)
        · exact Or.inl (Or.inr (hdb ▸ hn.symm))
        · exact Or.inr ⟨db, hdb, hn, hr⟩
    · simp only [collectSources, List.foldl_cons, if_neg hd]
      rw [show (List.foldl _ init ds : List String) =
        collectSources k ds init from rfl, ih]
      constructor
      · rintro (h | ⟨db, hdb, hn, hr⟩)
        · exact Or.inl h
        · exact Or.inr ⟨db, List.mem_cons_of_mem d hdb, hn, hr⟩
      · rintro (h | ⟨db, hdb, hn, hr⟩)
        · exact Or.inl h
        · rcases List.mem_cons.1 hdb with h' | h'
          · exact absurd (h' ▸ hr) hd
          · exact Or.inr ⟨db, h', hn, hr⟩

theorem addRow_foldl_entries (P : List String → Prop) (name : String)
    (rows : List (Option String × Option String))
    {acc : List (PairKey × List String)}
    (hacc : ∀ e ∈ acc, P e.2)
    (hins : ∀ s, P s → P (insertSet s name)) (hnew : P [name]) :
    ∀ e ∈ rows.foldl (addRow name) acc, P e.2 := by
  induction rows generalizing acc with
  | nil => exact hacc
  | cons r rs ih =>
    obtain ⟨a, b⟩ := r
    match a, b with
    | some ce, some hs =>
      exact ih (addPair_entries hacc hins hnew)
    | some ce, none => exact ih hacc
    | none, b => exact ih hacc

theorem all_pairs_entries (dbs : List SourceTable) :
    ∀ e ∈ all_pairs dbs,
      e.2 ≠ [] ∧ e.2.Nodup ∧ ∀ n ∈ e.2, n ∈ dbs.map (fun db => db.name) := by
  suffices h : ∀ (P : String → Prop) (acc : List (PairKey × List String)),
      (∀ e ∈ acc, e.2 ≠ [] ∧ e.2.Nodup ∧ ∀ n ∈ e.2, P n) →
      (∀ db ∈ dbs, P db.name) →
      ∀ e ∈ dbs.foldl addTable acc, e.2 ≠ [] ∧ e.2.Nodup ∧ ∀ n ∈ e.2, P n by
    exact h (fun n => n ∈ dbs.map (fun db => db.name)) []
      (by intro e he; exact absurd he (List.not_mem_nil e))
      (fun db hdb => List.mem_map.2 ⟨db, hdb, rfl⟩)
  intro P
  induction dbs with
  | nil => intro acc hacc _; exact hacc
  | cons d ds ih =>
    intro acc hacc hnames
    simp only [List.foldl_cons]
    refine ih (addTable acc d) ?_ (fun db hdb => hnames db (List.mem_cons_of_mem d hdb))
    unfold addTable
    refine addRow_foldl_entries
      (fun s => s ≠ [] ∧ s.Nodup ∧ ∀ n ∈ s, P n) d.name d.rows hacc ?_ ?_
    · rintro s ⟨hne, hnd, hsub⟩
      exact ⟨insertSet_ne_nil s d.name, insertSet_nodup hnd d.name,
        insertSet_subset hsub (hnames d (List.mem_cons_self d ds))⟩
    · exact ⟨by simp, List.nodup_singleton _,
        fun n hn => by
          simp only [List.mem_singleton] at hn
          exact hn ▸ hnames d (List.mem_cons_self d ds)⟩

theorem all_pairs_keys_nodup (dbs : List SourceTable) :
    ((all_pairs dbs).map (fun e => e.1)).Nodup := by
  suffices h : ∀ (acc : List (PairKey × List String)),
      ((acc.map (fun e => e.1)).Nodup) →
      ((dbs.foldl addTable acc).map (fun e => e.1)).Nodup by
    exact h [] (by simp)
  induction dbs with
  | nil => intro acc hacc; exact hacc
  | cons d ds ih =>
    intro acc hacc
    simp only [List.foldl_cons]
    refine ih (addTable acc d) ?_
    unfold addTable
    clear ih
    induction d.rows generalizing acc with
    | nil => exact hacc
    | cons r rs ihr =>
      obtain ⟨a, b⟩ := r
      match a, b with
      | some ce, some hs => exact ihr _ (addPair_keys_nodup hacc (ce, hs) d.name)
      | some ce, none => exact ihr _ hacc
      | none, b => exact ihr _ hacc

/-- C3: the master table has pairwise-distinct keys; a source name sits in a
key's source set exactly when that source's table has a record with both
sides non-null equal to the key; and every emitted record has
`score = |sources|`, a non-empty source set, and `1 ≤ score ≤` the number of
distinct participating sources. -/
theorem consolidation_invariants (dbs : List SourceTable) :
    ((all_pairs dbs).map (fun e => e.1)).Nodup ∧
    (∀ (k : PairKey) (n : String),
      (∃ s, pairLookup (all_pairs dbs) k = some s ∧ n ∈ s) ↔
        ∃ db ∈ dbs, db.name = n ∧ (some k.1, some k.2) ∈ db.rows) ∧
    (∀ m ∈ master_tuples dbs,
      m.score = m.databases.length ∧ m.databases ≠ [] ∧ 1 ≤ m.score ∧
      m.score ≤ (dbs.map (fun db => db.name)).toFinset.card) := by
  refine ⟨all_pairs_keys_nodup dbs, ?_, ?_⟩
  · intro k n
    rw [show all_pairs dbs = dbs.foldl addTable [] from rfl,
      pairLookup_foldTables]
    by_cases hex : ∃ db ∈ dbs, (some k.1, some k.2) ∈ db.rows
    · rw [if_pos hex]
      have h0 : ((pairLookup ([] : List (PairKey × List String)) k).getD []) =
          ([] : List String) := rfl
      rw [h0]
      constructor
      · rintro ⟨s, hs, hn⟩
        rw [Option.some_inj] at hs
        subst hs
        rcases mem_collectSources.1 hn with h | h
        · exact absurd h (List.not_mem_nil n)
        · exact h
      · intro h
        exact ⟨collectSources k dbs [], rfl, mem_collectSources.2 (Or.inr h)⟩
    · rw [if_neg hex]
      constructor
      · rintro ⟨s, hs, _⟩
        exact absurd hs (by simp [pairLookup])
      · rintro ⟨db, hdb, _, hr⟩
        exact absurd ⟨db, hdb, hr⟩ hex
  · intro m hm
    simp only [master_tuples, List.mem_map] at hm
    obtain ⟨e, he, hme⟩ := hm
    obtain ⟨hne, hnd, hsub⟩ := all_pairs_entries dbs e he
    subst hme
    have hperm : (sortNames e.2).Perm e.2 := List.perm_insertionSort _ _
    refine ⟨hperm.length_eq.symm, ?_, ?_, ?_⟩
    · intro hnil
      have hnil' : sortNames e.2 = [] := hnil
      exact hne (List.Perm.eq_nil (hnil' ▸ hperm).symm)
    · exact Nat.succ_le_of_lt (List.length_pos.2 hne)
    · have h1 : e.2.toFinset.card = e.2.length := List.toFinset_card_of_nodup hnd
      have h2 : e.2.toFinset ⊆ (dbs.map (fun db => db.name)).toFinset := by
        intro x hx
        rw [List.mem_toFinset] at hx ⊢
        exact hsub x hx
      calc e.2.length = e.2.toFinset.card := h1.symm
        _ ≤ _ := Finset.card_le_card h2

/-- The end-to-end example of the spec: source A asserts (W1,H1) and (W2,H1),
source B asserts (W1,H1) and (W3,H2). -/
def exampleTables : List SourceTable :=
  [⟨"A", [(some "W1", some "H1"), (some "W2", some "H1")]⟩,
   ⟨"B", [(some "W1", some "H1"), (some "W3", some "H2")]⟩]

/-- C3 witness: `consolidation_invariants` at the spec's two-source example,
instantiated at the record for (W2,H1). -/
theorem consolidation_invariants_witness :
    (⟨"W2", "H1", ["A"], 1⟩ : MasterRecord) ∈ master_tuples exampleTables ∧
    ((⟨"W2", "H1", ["A"], 1⟩ : MasterRecord).score =
        (⟨"W2", "H1", ["A"], 1⟩ : MasterRecord).databases.length ∧
      (⟨"W2", "H1", ["A"], 1⟩ : MasterRecord).databases ≠ [] ∧
      1 ≤ (⟨"W2", "H1", ["A"], 1⟩ : MasterRecord).score ∧
      (⟨"W2", "H1", ["A"], 1⟩ : MasterRecord).score ≤
        (exampleTables.map (fun db => db.name)).toFinset.card) :=
  ⟨by decide, (consolidation_invariants exampleTables).2.2 _ (by decide)⟩

/-- Two sources whose dict insertion order disagrees with ascending key
order: A contributes (W2,H1) first, B contributes (W1,H1) second. -/
def swapTables : List SourceTable :=
  [⟨"A", [(some "W2", some "H1")]⟩, ⟨"B", [(some "W1", some "H1")]⟩]

/-- C7 counterexample: the master table is emitted in dict insertion
(first-encounter) order, not sorted by key — here (W2,H1) precedes the
strictly smaller key (W1,H1). -/
theorem master_key_order_cex :
    (master_tuples swapTables).map (fun m => (m.ce, m.hs)) =
      [("W2", "H1"), ("W1", "H1")] ∧
    strLt "W1" "W2" = true ∧
    ¬ List.Pairwise
      (fun p q : PairKey => (strLt p.1 q.1 || (p.1 = q.1 && strLe p.2 q.2)) = true)
      ((master_tuples swapTables).map (fun m => (m.ce, m.hs))) := by
  refine ⟨by decide, by decide, by decide⟩

/-- C7 (amended): within each master record the source list is serialized
sorted lexicographically, and the spec's two-source example yields exactly
the three records (W1,H1):{A,B}/2, (W2,H1):{A}/1, (W3,H2):{B}/1 — in
first-encounter order (which happens to coincide with ascending key order in
this example); in general the records follow dict insertion order, not key
order. -/
theorem master_sources_sorted_and_example (dbs : List SourceTable) :
    (∀ m ∈ master_tuples dbs,
      List.Sorted (fun a b : String => strLe a b = true) m.databases) ∧
    master_tuples exampleTables =
      [⟨"W1", "H1", ["A", "B"], 2⟩, ⟨"W2", "H1", ["A"], 1⟩,
       ⟨"W3", "H2", ["B"], 1⟩] := by
  constructor
  · intro m hm
    simp only [master_tuples, List.mem_map] at hm
    obtain ⟨e, _, hme⟩ := hm
    subst hme
    exact List.sorted_insertionSort _ e.2
  · decide

/-- C7 witness: `master_sources_sorted_and_example` at the example tables,
instantiated at the (W1,H1) record. -/
theorem master_sources_sorted_witness :
    (⟨"W1", "H1", ["A", "B"], 2⟩ : MasterRecord) ∈ master_tuples exampleTables ∧
    List.Sorted (fun a b : String => strLe a b = true)
      (⟨"W1", "H1", ["A", "B"], 2⟩ : MasterRecord).databases :=
  ⟨by decide, (master_sources_sorted_and_example exampleTables).1 _ (by decide)⟩

/-! ## `Database.__init__` dispatch and the `Ortholist` override
(`src/databases/Database.py`, `src/databases/Ortholist.py`) -/

/-- The Python exceptions this pipeline can surface. -/
inductive PyError
  | typeError
  deriving DecidableEq, Repr

/-- A row of the legacy Ortholist frame (`legacy.csv`, columns 0 and 1). -/
abbrev LegacyRow := String × String

/-- pandas `drop_duplicates()`: keep the first occurrence of each row. -/
def drop_duplicates (df : List LegacyRow) : List LegacyRow :=
  (df.foldl (fun acc r => if r ∈ acc then acc else acc ++ [r]) [])

/-- A bound Python method on a `Database` subclass: the number of positional
parameters it declares beyond `self`, and its body applied to `self.df` and
the positional arguments. CPython raises `TypeError` when a call supplies a
number of positional arguments different from the declared count. -/
structure PyMethod where
  arity : Nat
  body : List LegacyRow → List (List LegacyRow) → List LegacyRow

/-- Calling a bound method with exactly one positional argument:
`self._process_wb_changes(self.df)`. -/
def callMethod1 (m : PyMethod) (selfDf arg : List LegacyRow) :
    Except PyError (List LegacyRow) :=
  if m.arity = 1 then Except.ok (m.body selfDf [arg]) else Except.error PyError.typeError

/-- The method table a concrete `Database` subclass supplies to
`Database.__init__`. -/
structure DatabaseImpl where
  read_raw : List LegacyRow
  perform_worm_mapping : List LegacyRow → List LegacyRow
  perform_human_mapping : List LegacyRow → List LegacyRow
  process_wb_changes : PyMethod

/-- `Database.__init__` (`src/databases/Database.py`): read the raw table,
run the two mappings, call `self._process_wb_changes(self.df)` with one
positional argument, then `drop_duplicates()`. -/
def database_init (impl : DatabaseImpl) : Except PyError (List LegacyRow) :=
  let df := impl.read_raw
  let df := impl.perform_worm_mapping df
  let df := impl.perform_human_mapping df
  match callMethod1 impl.process_wb_changes df df with
  | Except.ok df => Except.ok (drop_duplicates df)
  | Except.error e => Except.error e

/-- The `Ortholist` subclass (`src/databases/Ortholist.py`): `_read_raw`
reads and deduplicates `legacy.csv` (its content is the parameter `raw`),
the two mappings are the inherited identity defaults, and the
`_process_wb_changes` override declares zero parameters beyond `self` and
returns `self.df`. -/
def ortholistImpl (raw : List LegacyRow) : DatabaseImpl :=
  { read_raw := drop_duplicates raw
    perform_worm_mapping := fun df => df
    perform_human_mapping := fun df => df
    process_wb_changes := { arity := 0, body := fun selfDf _ => selfDf } }

/-- `Ortholist()`: `Database.__init__` run with the `Ortholist` overrides. -/
def ortholist_init (raw : List LegacyRow) : Except PyError (List LegacyRow) :=
  database_init (ortholistImpl raw)

/-- C10: constructing the legacy `Ortholist` database raises `TypeError` for
every input file content — `Database.__init__` passes one positional argument
to `_process_wb_changes`, whose `Ortholist` override declares none. -/
theorem ortholist_init_type_error (raw : List LegacyRow) :
    ortholist_init raw = Except.error PyError.typeError := rfl
